import Mathlib

/-!
Verification development for the propergol properties library
(package properties, file properties.go).

The Go code is shallowly embedded: strings are byte sequences
(lists of naturals below 256 in practice), the table is the
association list underlying the Go map (with in-place overwrite,
which has the same Get semantics), the streaming parser state and
its per-byte transition function are translated field by field,
and the reader is a byte list followed by a terminal event
(end of file, or a read error carrying a message).
-/

abbrev Byte := Nat
abbrev ByteStr := List Byte

/-- Byte sequence of an ASCII string literal. -/
def bytes (s : String) : ByteStr := s.data.map Char.toNat

/-- Insert or overwrite a binding, keeping the position of an existing key
(the Go map has no observable order; this choice fixes one). -/
def setEntry : List (ByteStr × ByteStr) → ByteStr → ByteStr → List (ByteStr × ByteStr)
  | [], k, v => [(k, v)]
  | e :: rest, k, v => if e.1 = k then (k, v) :: rest else e :: setEntry rest k v

def lookupVal : List (ByteStr × ByteStr) → ByteStr → Option ByteStr
  | [], _ => none
  | e :: rest, k => if e.1 = k then some e.2 else lookupVal rest k

/-- The Properties structure: a mapping of keys to values. -/
structure Properties where
  values : List (ByteStr × ByteStr)
deriving DecidableEq

/-- New: create an empty instance. -/
def New : Properties := ⟨[]⟩

/-- Set: assign the given value to the property with the specified key. -/
def Properties.Set (p : Properties) (key value : ByteStr) : Properties :=
  ⟨setEntry p.values key value⟩

/-- Get: value of the property plus a presence flag
(the Go zero value, the empty string, is returned when absent). -/
def Properties.Get (p : Properties) (key : ByteStr) : ByteStr × Bool :=
  match lookupVal p.values key with
  | some v => (v, true)
  | none => ([], false)

/-- The message part of propDefError, one constructor per message string:
"illegal escape sequence \c", "no separator", "empty key",
"line wrapped without a continuation". -/
inductive ErrMessage where
  | illegalEscape (c : Byte)
  | noSeparator
  | emptyKey
  | lineWrapped
deriving DecidableEq

/-- propDefError: line number and message. -/
structure PropDefError where
  lineNumber : Nat
  message : ErrMessage
deriving DecidableEq

/-- unescape: recognized escape targets are the backslash (92) and the
equals sign (61); otherwise the placeholder 63 and failure. -/
def unescape (c : Byte) : Byte × Bool :=
  if c = 92 ∨ c = 61 then (c, true) else (63, false)

/-- loadState: data used while processing input. -/
structure LoadState where
  lineNumber : Nat
  key : ByteStr
  builder : ByteStr
  escaped : Bool
  inMember : Bool
  inKey : Bool
  skipLine : Bool
deriving DecidableEq

/-- The character class of strings.TrimRight(s, " \t"). -/
def isBlank (c : Byte) : Bool := c == 32 || c == 9

/-- strings.TrimRight(s, " \t"). -/
def trimRight (s : ByteStr) : ByteStr := (s.reverse.dropWhile isBlank).reverse

/-- processByte: one step of the scanner, in the Go switch order
(10 is the newline, 92 the backslash, 61 the equals sign, 35 the hash,
32 the space, 9 the tab). -/
def processByte (c : Byte) (p : Properties) (s : LoadState) :
    Except PropDefError (Properties × LoadState) :=
  if s.skipLine then
    if c = 10 then .ok (p, { s with skipLine := false }) else .ok (p, s)
  else if s.escaped then
    if c = 10 then
      .ok (p, { s with lineNumber := s.lineNumber + 1, inMember := false, escaped := false })
    else if (unescape c).2 then
      .ok (p, { s with builder := s.builder ++ [(unescape c).1], escaped := false })
    else
      .error ⟨s.lineNumber, .illegalEscape c⟩
  else if c = 92 then
    .ok (p, { s with escaped := true, inMember := true })
  else if c = 10 then
    if s.inMember then
      if s.inKey then
        .error ⟨s.lineNumber, .noSeparator⟩
      else
        .ok (p.Set (trimRight s.key) (trimRight s.builder),
             { s with builder := [], inKey := true, inMember := false })
    else
      .ok (p, s)
  else if c = 61 ∧ s.inKey then
    if s.inMember then
      .ok (p, { s with key := s.builder, builder := [], inKey := false, inMember := false })
    else
      .error ⟨s.lineNumber, .emptyKey⟩
  else if ¬ s.inMember ∧ s.inKey ∧ c = 35 then
    .ok (p, { s with skipLine := true })
  else if s.inMember ∨ (c ≠ 32 ∧ c ≠ 9) then
    .ok (p, { s with builder := s.builder ++ [c], inMember := true })
  else
    .ok (p, s)

/-- The read loop of Load: process bytes until the stream is exhausted or
processByte fails (the table is returned as it stands at the failure). -/
def loadBytes (p : Properties) (s : LoadState) :
    List Byte → Properties × LoadState × Option PropDefError
  | [] => (p, s, none)
  | c :: rest =>
    match processByte c p s with
    | .error e => (p, s, some e)
    | .ok (p2, s2) => loadBytes p2 s2 rest

/-- How the reader terminates after its bytes: end of file, or a read error. -/
inductive ReadEnd where
  | eof
  | readErr (msg : String)
deriving DecidableEq

/-- The error returned by Load: a format error, or the reader's own error
propagated unchanged. -/
inductive LoadError where
  | propDef (e : PropDefError)
  | readFailure (msg : String)
deriving DecidableEq

/-- Initial scanner state of Load. -/
def initState : LoadState :=
  { lineNumber := 1, key := [], builder := [], escaped := false,
    inMember := false, inKey := true, skipLine := false }

/-- The tail of Load after the read loop stops without a format error:
pending-escape check, commit of an unterminated last line, and translation
of the loop-ending read condition (io.EOF is success, anything else is
propagated). -/
def finishLoad (p : Properties) (s : LoadState) (fin : ReadEnd) :
    Properties × Option LoadError :=
  if s.escaped then
    (p, some (.propDef ⟨s.lineNumber, .lineWrapped⟩))
  else if s.inMember then
    if s.inKey then
      (p, some (.propDef ⟨s.lineNumber, .noSeparator⟩))
    else
      match fin with
      | .eof => (p.Set (trimRight s.key) (trimRight s.builder), none)
      | .readErr m => (p.Set (trimRight s.key) (trimRight s.builder), some (.readFailure m))
  else
    match fin with
    | .eof => (p, none)
    | .readErr m => (p, some (.readFailure m))

/-- Load: parse properties in text form; returns the table as mutated and
the returned error, if any. -/
def Properties.Load (p : Properties) (input : List Byte) (fin : ReadEnd) :
    Properties × Option LoadError :=
  match loadBytes p initState input with
  | (p2, _, some e) => (p2, some (.propDef e))
  | (p2, s, none) => finishLoad p2 s fin

/-- keyEscaper: per-byte replacement of the equals sign, the backslash and
the newline (the replacer's patterns are all single bytes). -/
def escapeKeyByte (c : Byte) : ByteStr :=
  if c = 61 then [92, 61] else if c = 92 then [92, 92]
  else if c = 10 then [92, 10] else [c]

/-- valueEscaper: per-byte replacement of the backslash and the newline. -/
def escapeValueByte (c : Byte) : ByteStr :=
  if c = 92 then [92, 92] else if c = 10 then [92, 10] else [c]

/-- One output line of Store: escaped key, separator, escaped value, newline. -/
def storeLine (k v : ByteStr) : ByteStr :=
  k.flatMap escapeKeyByte ++ [61] ++ v.flatMap escapeValueByte ++ [10]

/-- Store: output the properties in text form, one entry per line, with a
writer that never fails. -/
def Properties.Store (p : Properties) : ByteStr :=
  p.values.flatMap (fun e => storeLine e.1 e.2)

/-- Every key present in the table is a non-empty string. -/
def keysNonempty (p : Properties) : Bool :=
  p.values.all (fun e => !e.1.isEmpty)

/-- Scanner state at the start of a logical line, right after a committing
newline or at the start of the stream: no pending escape, no content begun,
scanning the key, not inside a comment. -/
def syncState (s : LoadState) : Prop :=
  s.escaped = false ∧ s.inMember = false ∧ s.inKey = true ∧ s.skipLine = false

/-- Invariant justifying that deposited keys are non-empty: whenever member
content has begun outside an escape, the buffer holds a non-blank byte, and
once the separator has been met the retained key trims to a non-empty
string. -/
def stateKeyInv (s : LoadState) : Prop :=
  (s.inMember = true → s.escaped = false → ∃ b ∈ s.builder, isBlank b = false) ∧
  (s.inKey = false → trimRight s.key ≠ [])

/-- The member neither starts nor ends with a space or a tab. -/
def noEdgeBlank (m : ByteStr) : Bool :=
  !isBlank (m.headD 0) && !isBlank (m.reverse.headD 0)

/-- A key that survives the round trip through the text form: non-empty, no
newline, not starting with the comment marker, no blank at either edge. -/
def goodKey (k : ByteStr) : Bool :=
  !k.isEmpty && !k.contains 10 && !(k.headD 0 == 35) && noEdgeBlank k

/-- A value that survives the round trip through the text form: non-empty,
no newline, no blank at either edge. -/
def goodValue (v : ByteStr) : Bool :=
  !v.isEmpty && !v.contains 10 && noEdgeBlank v

/-- Splitting the processed byte list: the read loop over a concatenation
runs the first part, and the second only when no error stopped it. -/
theorem loadBytes_append (p : Properties) (s : LoadState) (l1 l2 : List Byte) :
    loadBytes p s (l1 ++ l2) =
      match loadBytes p s l1 with
      | (p2, s2, none) => loadBytes p2 s2 l2
      | r => r := by
  induction l1 generalizing p s with
  | nil => rfl
  | cons c rest ih =>
    simp only [List.cons_append, loadBytes]
    cases h : processByte c p s with
    | error e => rfl
    | ok ps => exact ih ps.1 ps.2

/-- C2: loading a key, the separator and a terminating newline with an empty
value is claimed to commit the pair with the empty string as value; the code
instead treats the newline as ending a blank line (inMember is false right
after the separator), commits nothing, and leaves the table without the key. -/
theorem c2_empty_value_dropped :
    New.Load (bytes "key=\n") .eof = (⟨[]⟩, none) ∧
    (New.Load (bytes "key=\n") .eof).1.Get (bytes "key") = ([], false) := by decide

/-- C3: after a line continuation inside the key, the next physical line
starting with a hash is claimed to be ordinary key content; the code instead
recognizes it as a comment (inMember was reset by the continuation while
inKey is still true), discards the rest of the logical line, and the load
succeeds with an empty table instead of binding the key ab#c. -/
theorem c3_comment_after_continuation :
    New.Load (bytes "ab\\\n#c=v\n") .eof = (⟨[]⟩, none) ∧
    (New.Load (bytes "ab\\\n#c=v\n") .eof).1.Get (bytes "ab#c") = ([], false) := by decide

/-- C5: the missing-separator error on the second physical line of the input
is claimed to carry line number 2; the code only increments lineNumber on
continuation newlines, never on ordinary ones, so the error carries line
number 1. -/
theorem c5_line_number_stuck_at_one :
    New.Load (bytes "a=b\nbad\n") .eof =
      (⟨[(bytes "a", bytes "b")]⟩, some (.propDef ⟨1, .noSeparator⟩)) := by decide

/-- C6: a continuation reconstructs a single value, dropping the
continuation line's leading whitespace and inserting no line break. -/
theorem c6_line_continuation :
    (New.Load (bytes "key=part1\\\n   part2\n") .eof).1.Get (bytes "key") =
      (bytes "part1part2", true) ∧
    New.Load (bytes "key=part1\\\n   part2\n") .eof =
      (⟨[(bytes "key", bytes "part1part2")]⟩, none) := by decide

/-- C8: horizontal whitespace before the key, around the separator and after
the value is discarded: the padded input loads to the very same table,
error and all, as the unpadded one. -/
theorem c8_whitespace_insignificant :
    New.Load (bytes "  key = value  \n") .eof =
      New.Load (bytes "key=value\n") .eof := by decide

/-- C4: the recognized escape targets are exactly the backslash and the
equals sign; an escaped equals sign in a value decodes to a literal one, and
a backslash followed by any other non-newline byte makes Load fail with an
illegal-escape-sequence error, whatever follows. -/
theorem c4_escape_targets :
    (∀ c : Byte, (unescape c).2 = true ↔ (c = 92 ∨ c = 61)) ∧
    New.Load (bytes "key=a\\=b\n") .eof = (⟨[(bytes "key", bytes "a=b")]⟩, none) ∧
    (∀ (c : Byte) (rest : List Byte), c ≠ 10 → c ≠ 92 → c ≠ 61 →
      New.Load (bytes "key=a\\" ++ c :: rest) .eof =
        (⟨[]⟩, some (.propDef ⟨1, .illegalEscape c⟩))) := by
  refine ⟨?_, by decide, ?_⟩
  · intro c
    unfold unescape
    by_cases h : c = 92 ∨ c = 61 <;> simp [h]
  · intro c rest h10 h92 h61
    have h1 : loadBytes New initState (bytes "key=a\\") =
        (New, ⟨1, bytes "key", bytes "a", true, true, false, false⟩, none) := by decide
    unfold Properties.Load
    rw [loadBytes_append, h1]
    simp only [loadBytes, processByte, unescape, h10, h92, h61]
    simp [New]

/-- C4 at a concrete illegal escape target, the letter x (byte 120). -/
theorem c4_escape_targets_witness :
    New.Load (bytes "key=a\\" ++ 120 :: bytes "\n") .eof =
      (⟨[]⟩, some (.propDef ⟨1, .illegalEscape 120⟩)) :=
  c4_escape_targets.2.2 120 (bytes "\n") (by decide) (by decide) (by decide)

theorem trimRight_eq_self (l : ByteStr) (h : isBlank (l.reverse.headD 0) = false) :
    trimRight l = l := by
  unfold trimRight
  cases hr : l.reverse with
  | nil =>
    have : l = [] := by simpa using congrArg List.reverse hr
    simp [this]
  | cons a t =>
    rw [hr] at h
    simp only [List.headD_cons] at h
    rw [List.dropWhile_cons, h]
    simp [← hr]

theorem trimRight_ne_nil (l : ByteStr) (h : ∃ b ∈ l, isBlank b = false) :
    trimRight l ≠ [] := by
  obtain ⟨b, hb, hbl⟩ := h
  unfold trimRight
  intro hcontra
  have h2 : l.reverse.dropWhile isBlank = [] := by
    simpa using congrArg List.reverse hcontra
  rw [List.dropWhile_eq_nil_iff] at h2
  have := h2 b (by simpa using hb)
  simp [hbl] at this

/-- C10 counterexample: the reader fails while a value is being accumulated
(the separator of the line k=va has been seen and content deposited), but a
backslash is pending, so Load commits nothing and returns the format error
about the wrapped line, not the reader's error. -/
theorem c10_pending_escape_counterexample :
    New.Load (bytes "k=va\\") (.readErr "boom") =
      (⟨[]⟩, some (.propDef ⟨1, .lineWrapped⟩)) ∧
    (loadBytes New initState (bytes "k=va\\")).2.1.inMember = true ∧
    (loadBytes New initState (bytes "k=va\\")).2.1.inKey = false ∧
    (New.Load (bytes "k=va\\") (.readErr "boom")).1.Get (bytes "k") = ([], false) := by
  decide

/-- C10 (amended with no pending escape): when the bytes read before the
failure leave the scanner inside the value with no escape pending, Load
commits the partial pair exactly as an end of stream would, then returns the
reader's error unchanged. -/
theorem c10_read_error_commits (p : Properties) (input : List Byte) (m : String)
    (T : Properties) (s : LoadState)
    (h : loadBytes p initState input = (T, s, none))
    (hesc : s.escaped = false) (hmem : s.inMember = true) (hkey : s.inKey = false) :
    p.Load input (.readErr m) =
      (T.Set (trimRight s.key) (trimRight s.builder), some (.readFailure m)) ∧
    (p.Load input (.readErr m)).1 = (p.Load input .eof).1 := by
  unfold Properties.Load
  rw [h]
  unfold finishLoad
  simp [hesc, hmem, hkey]

/-- C10 at a concrete input: read failure right after the bytes k=v. -/
theorem c10_read_error_commits_witness :
    New.Load (bytes "k=v") (.readErr "boom") =
      (⟨[(bytes "k", bytes "v")]⟩, some (.readFailure "boom")) ∧
    (New.Load (bytes "k=v") (.readErr "boom")).1 = (New.Load (bytes "k=v") .eof).1 := by
  have h := c10_read_error_commits New (bytes "k=v") "boom" ⟨[]⟩
    ⟨1, bytes "k", bytes "v", false, true, false, false⟩ (by decide) rfl rfl rfl
  exact ⟨by rw [h.1]; decide, h.2⟩

theorem setEntry_keys_nonempty (l : List (ByteStr × ByteStr)) (k v : ByteStr)
    (hl : l.all (fun e => !e.1.isEmpty) = true) (hk : k ≠ []) :
    (setEntry l k v).all (fun e => !e.1.isEmpty) = true := by
  induction l with
  | nil => simp [setEntry, hk]
  | cons e rest ih =>
    simp only [List.all_cons, Bool.and_eq_true] at hl
    simp only [setEntry]
    split
    · simp [List.all_cons, hl.2, hk]
    · simp [List.all_cons, hl.1, ih hl.2]

theorem keysNonempty_Set (p : Properties) (k v : ByteStr)
    (hp : keysNonempty p = true) (hk : k ≠ []) :
    keysNonempty (p.Set k v) = true :=
  setEntry_keys_nonempty p.values k v hp hk

theorem processByte_inv (c : Byte) (p : Properties) (s : LoadState)
    (p2 : Properties) (s2 : LoadState)
    (h : processByte c p s = .ok (p2, s2))
    (hp : keysNonempty p = true) (hs : stateKeyInv s) :
    keysNonempty p2 = true ∧ stateKeyInv s2 := by
  obtain ⟨hs1, hs2⟩ := hs
  unfold processByte at h
  split at h
  · -- skipLine
    split at h <;>
      (simp only [Except.ok.injEq, Prod.mk.injEq] at h; obtain ⟨rfl, rfl⟩ := h) <;>
      exact ⟨hp, hs1, hs2⟩
  split at h
  · -- escaped
    split at h
    · -- continuation newline
      simp only [Except.ok.injEq, Prod.mk.injEq] at h
      obtain ⟨rfl, rfl⟩ := h
      exact ⟨hp, by simp [stateKeyInv], hs2⟩
    split at h
    · -- escape resolved: a non-blank byte (92 or 61) is appended
      simp only [Except.ok.injEq, Prod.mk.injEq] at h
      obtain ⟨rfl, rfl⟩ := h
      refine ⟨hp, ?_, hs2⟩
      intro _ _
      refine ⟨(unescape c).1, by simp, ?_⟩
      unfold unescape
      split
      · rename_i hor
        rcases hor with rfl | rfl <;> decide
      · decide
    · exact absurd h (by simp)
  split at h
  · -- backslash
    simp only [Except.ok.injEq, Prod.mk.injEq] at h
    obtain ⟨rfl, rfl⟩ := h
    exact ⟨hp, by simp [stateKeyInv], hs2⟩
  split at h
  · -- newline
    split at h
    · split at h
      · exact absurd h (by simp)
      · -- commit
        simp only [Except.ok.injEq, Prod.mk.injEq] at h
        obtain ⟨rfl, rfl⟩ := h
        rename_i hc10 hmem hkey
        refine ⟨keysNonempty_Set p _ _ hp ?_, by simp [stateKeyInv], by simp⟩
        exact hs2 (by simpa using hkey)
    · simp only [Except.ok.injEq, Prod.mk.injEq] at h
      obtain ⟨rfl, rfl⟩ := h
      exact ⟨hp, hs1, hs2⟩
  split at h
  · -- separator
    split at h
    · simp only [Except.ok.injEq, Prod.mk.injEq] at h
      obtain ⟨rfl, rfl⟩ := h
      rename_i hnskip hnesc hn92 hn10 hsep hmem
      refine ⟨hp, by simp [stateKeyInv], ?_⟩
      intro _
      refine trimRight_ne_nil s.builder ?_
      exact hs1 (by simpa using hmem) (by simpa using hnesc)
    · exact absurd h (by simp)
  split at h
  · -- comment marker
    simp only [Except.ok.injEq, Prod.mk.injEq] at h
    obtain ⟨rfl, rfl⟩ := h
    exact ⟨hp, by simpa [stateKeyInv] using ⟨hs1, hs2⟩⟩
  split at h
  · -- append to the member
    simp only [Except.ok.injEq, Prod.mk.injEq] at h
    obtain ⟨rfl, rfl⟩ := h
    rename_i hnskip hnesc hn92 hn10 hnsep hncom hcond
    refine ⟨hp, ?_, hs2⟩
    intro _ _
    rcases hcond with hmem | ⟨h32, h9⟩
    · obtain ⟨b, hb, hbl⟩ := hs1 hmem (by simpa using hnesc)
      exact ⟨b, by simp [hb], hbl⟩
    · exact ⟨c, by simp, by simp [isBlank, h32, h9]⟩
  · simp only [Except.ok.injEq, Prod.mk.injEq] at h
    obtain ⟨rfl, rfl⟩ := h
    exact ⟨hp, hs1, hs2⟩

theorem loadBytes_inv (input : List Byte) (p : Properties) (s : LoadState)
    (hp : keysNonempty p = true) (hs : stateKeyInv s) :
    keysNonempty (loadBytes p s input).1 = true ∧
    ((loadBytes p s input).2.2 = none → stateKeyInv (loadBytes p s input).2.1) := by
  induction input generalizing p s with
  | nil => exact ⟨hp, fun _ => hs⟩
  | cons c rest ih =>
    simp only [loadBytes]
    cases h : processByte c p s with
    | error e => exact ⟨hp, by simp⟩
    | ok ps =>
      obtain ⟨hp2, hs2⟩ := processByte_inv c p s ps.1 ps.2 (by rw [h]) hp hs
      exact ih ps.1 ps.2 hp2 hs2

/-- C9: every entry the parser deposits has a non-empty key: starting from a
table whose keys are all non-empty, the table after any Load still has only
non-empty keys, and a line whose first unescaped separator is preceded only
by whitespace fails with the empty-key error instead of committing. -/
theorem c9_deposited_keys_nonempty :
    (∀ (p : Properties) (input : List Byte) (fin : ReadEnd),
      keysNonempty p = true → keysNonempty (p.Load input fin).1 = true) ∧
    New.Load (bytes " =v\n") .eof = (⟨[]⟩, some (.propDef ⟨1, .emptyKey⟩)) := by
  refine ⟨?_, by decide⟩
  intro p input fin hp
  have hinv := loadBytes_inv input p initState hp
    (by constructor <;> simp [initState, stateKeyInv])
  unfold Properties.Load
  rcases hlb : loadBytes p initState input with ⟨T, s, err⟩
  rw [hlb] at hinv
  cases err with
  | some e => exact hinv.1
  | none =>
    have hsinv : stateKeyInv s := hinv.2 rfl
    have hT : keysNonempty T = true := hinv.1
    show keysNonempty (finishLoad T s fin).1 = true
    unfold finishLoad
    split
    · exact hT
    · split
      · split
        · exact hT
        · rename_i hnesc hmem hnkey
          have hkey : trimRight s.key ≠ [] := hsinv.2 (by simpa using hnkey)
          cases fin <;> exact keysNonempty_Set T _ _ hT hkey
      · cases fin <;> exact hT

/-- C9 at concrete inputs: the empty table has non-empty keys only, and so
does the result of loading x=y into it. -/
theorem c9_deposited_keys_nonempty_witness :
    keysNonempty New = true ∧
    keysNonempty (New.Load (bytes "x=y\n") .eof).1 = true :=
  ⟨by decide, c9_deposited_keys_nonempty.1 New (bytes "x=y\n") .eof (by decide)⟩

theorem processByte_table (c : Byte) (p : Properties) (s : LoadState)
    (p2 : Properties) (s2 : LoadState)
    (h : processByte c p s = .ok (p2, s2)) :
    p2 = p ∨ (c = 10 ∧ syncState s2) := by
  unfold processByte at h
  split at h
  · split at h <;>
      (simp only [Except.ok.injEq, Prod.mk.injEq] at h; exact Or.inl h.1.symm)
  split at h
  · split at h
    · simp only [Except.ok.injEq, Prod.mk.injEq] at h
      exact Or.inl h.1.symm
    split at h
    · simp only [Except.ok.injEq, Prod.mk.injEq] at h
      exact Or.inl h.1.symm
    · exact absurd h (by simp)
  split at h
  · simp only [Except.ok.injEq, Prod.mk.injEq] at h
    exact Or.inl h.1.symm
  split at h
  · split at h
    · split at h
      · exact absurd h (by simp)
      · -- commit: the next state is a fresh line start
        simp only [Except.ok.injEq, Prod.mk.injEq] at h
        obtain ⟨rfl, rfl⟩ := h
        rename_i hnskip hnesc hn92 hc10 hmem hnkey
        refine Or.inr ⟨hc10, by simpa using hnesc, rfl, rfl, by simpa using hnskip⟩
    · simp only [Except.ok.injEq, Prod.mk.injEq] at h
      exact Or.inl h.1.symm
  split at h
  · split at h
    · simp only [Except.ok.injEq, Prod.mk.injEq] at h
      exact Or.inl h.1.symm
    · exact absurd h (by simp)
  split at h
  · simp only [Except.ok.injEq, Prod.mk.injEq] at h
    exact Or.inl h.1.symm
  split at h
  · simp only [Except.ok.injEq, Prod.mk.injEq] at h
    exact Or.inl h.1.symm
  · simp only [Except.ok.injEq, Prod.mk.injEq] at h
    exact Or.inl h.1.symm

theorem loadBytes_table_sync (input : List Byte) (p : Properties) (s : LoadState) :
    (loadBytes p s input).1 = p ∨
    (∃ n, 0 < n ∧ n ≤ input.length ∧ input.getD (n - 1) 0 = 10 ∧
      ∃ s2, syncState s2 ∧
        loadBytes p s (input.take n) = ((loadBytes p s input).1, s2, none)) := by
  induction input generalizing p s with
  | nil => exact Or.inl rfl
  | cons c rest ih =>
    cases h : processByte c p s with
    | error e =>
      left
      simp [loadBytes, h]
    | ok ps =>
      obtain ⟨p2, sNext⟩ := ps
      have hstep : loadBytes p s (c :: rest) = loadBytes p2 sNext rest := by
        simp [loadBytes, h]
      rcases ih p2 sNext with htab | ⟨n, hn0, hnle, hnl, s3, hsync, hpre⟩
      · rcases processByte_table c p s p2 sNext h with rfl | ⟨rfl, hsync2⟩
        · left
          rw [hstep, htab]
        · right
          refine ⟨1, one_pos, by simp, by simp, sNext, hsync2, ?_⟩
          rw [hstep, htab]
          simp [loadBytes, h]
      · right
        obtain ⟨m, rfl⟩ : ∃ m, n = m + 1 := ⟨n - 1, by omega⟩
        refine ⟨m + 2, by omega, by simpa using hnle, by simpa using hnl, s3, hsync, ?_⟩
        rw [hstep]
        rw [show (c :: rest).take (m + 2) = c :: rest.take (m + 1) from rfl]
        simpa [loadBytes, h] using hpre

theorem finishLoad_propDef (p : Properties) (s : LoadState) (fin : ReadEnd)
    (T : Properties) (e : PropDefError)
    (h : finishLoad p s fin = (T, some (.propDef e))) : T = p := by
  unfold finishLoad at h
  split at h
  · exact (Prod.mk.injEq .. ▸ h).1.symm
  split at h
  · split at h
    · exact (Prod.mk.injEq .. ▸ h).1.symm
    · cases fin <;> simp_all
  · cases fin <;> simp_all

/-- C7: Load is fail-fast without rollback: whenever it returns a format
error, the table is exactly what loading some prefix of the input that ends
at a line boundary (or is empty) yields without error — the entries present
before the call overlaid with the pairs of the logical lines fully
committed before the failure, and nothing from the failing line onwards. -/
theorem c7_fail_fast (p : Properties) (input : List Byte) (fin : ReadEnd)
    (T : Properties) (e : PropDefError)
    (h : p.Load input fin = (T, some (.propDef e))) :
    ∃ n, n ≤ input.length ∧ (n = 0 ∨ input.getD (n - 1) 0 = 10) ∧
      p.Load (input.take n) .eof = (T, none) := by
  have hempty : p.Load [] .eof = (p, none) := rfl
  have hmain : ∀ T2 : Properties, (loadBytes p initState input).1 = T2 →
      ∃ n, n ≤ input.length ∧ (n = 0 ∨ input.getD (n - 1) 0 = 10) ∧
        p.Load (input.take n) .eof = (T2, none) := by
    intro T2 hT2
    rcases loadBytes_table_sync input p initState with htab | ⟨n, hn0, hnle, hnl, s2, hsync, hpre⟩
    · exact ⟨0, Nat.zero_le _, Or.inl rfl, by rw [List.take_zero, hempty, ← hT2, htab]⟩
    · refine ⟨n, hnle, Or.inr hnl, ?_⟩
      rw [hT2] at hpre
      unfold Properties.Load
      rw [hpre]
      obtain ⟨he, hm, _, _⟩ := hsync
      simp [finishLoad, he, hm]
  unfold Properties.Load at h
  rcases hlb : loadBytes p initState input with ⟨T0, s0, err⟩
  rw [hlb] at h
  cases err with
  | some e0 =>
    simp only [Prod.mk.injEq, Option.some.injEq] at h
    exact hmain T (by rw [hlb, h.1])
  | none =>
    have : T = T0 := finishLoad_propDef T0 s0 fin T e h
    exact hmain T (by rw [hlb, this])

/-- C7 at a concrete failing load: for the input a=b newline bad newline the
committed prefix is the first four bytes, ending at the newline. -/
theorem c7_fail_fast_witness :
    ∃ n, n ≤ (bytes "a=b\nbad\n").length ∧
      (n = 0 ∨ (bytes "a=b\nbad\n").getD (n - 1) 0 = 10) ∧
      New.Load ((bytes "a=b\nbad\n").take n) .eof =
        (⟨[(bytes "a", bytes "b")]⟩, none) :=
  c7_fail_fast New (bytes "a=b\nbad\n") .eof ⟨[(bytes "a", bytes "b")]⟩
    ⟨1, .noSeparator⟩ (by decide)

theorem key_char_step (p : Properties) (L : Nat) (K b : ByteStr) (m : Bool) (c : Byte)
    (rest : List Byte) (h10 : c ≠ 10)
    (h35 : m = true ∨ c ≠ 35) (hbl : m = true ∨ isBlank c = false) :
    loadBytes p ⟨L, K, b, false, m, true, false⟩ (escapeKeyByte c ++ rest) =
    loadBytes p ⟨L, K, b ++ [c], false, true, true, false⟩ rest := by
  by_cases h61 : c = 61
  · subst h61
    simp [escapeKeyByte, loadBytes, processByte, unescape]
  by_cases h92 : c = 92
  · subst h92
    simp [escapeKeyByte, loadBytes, processByte, unescape]
  · have he : escapeKeyByte c = [c] := by simp [escapeKeyByte, h61, h92, h10]
    rw [he, List.cons_append, List.nil_append]
    cases m with
    | true => simp [loadBytes, processByte, h61, h92, h10]
    | false =>
      rcases h35 with h | h35f
      · exact absurd h (by simp)
      rcases hbl with h | hblf
      · exact absurd h (by simp)
      have h32 : c ≠ 32 := by intro hh; subst hh; simp [isBlank] at hblf
      have h9 : c ≠ 9 := by intro hh; subst hh; simp [isBlank] at hblf
      simp [loadBytes, processByte, h61, h92, h10, h35f, h32, h9]

theorem key_run (k : ByteStr) (p : Properties) (L : Nat) (K : ByteStr) :
    ∀ (b : ByteStr) (rest : List Byte), k.contains 10 = false →
    loadBytes p ⟨L, K, b, false, true, true, false⟩ (k.flatMap escapeKeyByte ++ rest) =
    loadBytes p ⟨L, K, b ++ k, false, true, true, false⟩ rest := by
  induction k with
  | nil => intro b rest _; simp
  | cons c k2 ih =>
    intro b rest h10
    simp only [List.contains_cons, Bool.or_eq_false_iff, beq_eq_false_iff_ne, ne_eq] at h10
    rw [List.flatMap_cons, List.append_assoc,
      key_char_step p L K b true c _ (fun hh => h10.1 hh.symm) (Or.inl rfl) (Or.inl rfl),
      ih (b ++ [c]) rest h10.2]
    simp

theorem val_char_step (p : Properties) (L : Nat) (K b : ByteStr) (m : Bool) (c : Byte)
    (rest : List Byte) (h10 : c ≠ 10) (hbl : m = true ∨ isBlank c = false) :
    loadBytes p ⟨L, K, b, false, m, false, false⟩ (escapeValueByte c ++ rest) =
    loadBytes p ⟨L, K, b ++ [c], false, true, false, false⟩ rest := by
  by_cases h92 : c = 92
  · subst h92
    simp [escapeValueByte, loadBytes, processByte, unescape]
  · have he : escapeValueByte c = [c] := by simp [escapeValueByte, h92, h10]
    rw [he, List.cons_append, List.nil_append]
    cases m with
    | true => simp [loadBytes, processByte, h92, h10]
    | false =>
      rcases hbl with h | hblf
      · exact absurd h (by simp)
      have h32 : c ≠ 32 := by intro hh; subst hh; simp [isBlank] at hblf
      have h9 : c ≠ 9 := by intro hh; subst hh; simp [isBlank] at hblf
      simp [loadBytes, processByte, h92, h10, h32, h9]

theorem val_run (v : ByteStr) (p : Properties) (L : Nat) (K : ByteStr) :
    ∀ (b : ByteStr) (rest : List Byte), v.contains 10 = false →
    loadBytes p ⟨L, K, b, false, true, false, false⟩ (v.flatMap escapeValueByte ++ rest) =
    loadBytes p ⟨L, K, b ++ v, false, true, false, false⟩ rest := by
  induction v with
  | nil => intro b rest _; simp
  | cons c v2 ih =>
    intro b rest h10
    simp only [List.contains_cons, Bool.or_eq_false_iff, beq_eq_false_iff_ne, ne_eq] at h10
    rw [List.flatMap_cons, List.append_assoc,
      val_char_step p L K b true c _ (fun hh => h10.1 hh.symm) (Or.inl rfl),
      ih (b ++ [c]) rest h10.2]
    simp

theorem goodKey_parts (k : ByteStr) (h : goodKey k = true) :
    k ≠ [] ∧ k.contains 10 = false ∧ k.headD 0 ≠ 35 ∧
    isBlank (k.headD 0) = false ∧ isBlank (k.reverse.headD 0) = false := by
  unfold goodKey noEdgeBlank at h
  simp only [Bool.and_eq_true] at h
  obtain ⟨⟨⟨ha, hb⟩, hc⟩, hd1, hd2⟩ := h
  refine ⟨?_, ?_, ?_, ?_, ?_⟩
  · intro hnil; subst hnil; simp at ha
  · simpa using hb
  · simpa using hc
  · simpa using hd1
  · simpa using hd2

theorem goodValue_parts (v : ByteStr) (h : goodValue v = true) :
    v ≠ [] ∧ v.contains 10 = false ∧
    isBlank (v.headD 0) = false ∧ isBlank (v.reverse.headD 0) = false := by
  unfold goodValue noEdgeBlank at h
  simp only [Bool.and_eq_true] at h
  obtain ⟨⟨ha, hb⟩, hd1, hd2⟩ := h
  refine ⟨?_, ?_, ?_, ?_⟩
  · intro hnil; subst hnil; simp at ha
  · simpa using hb
  · simpa using hd1
  · simpa using hd2

theorem storeLine_step (p : Properties) (L : Nat) (K k v : ByteStr) (rest : List Byte)
    (hk : goodKey k = true) (hv : goodValue v = true) :
    loadBytes p ⟨L, K, [], false, false, true, false⟩ (storeLine k v ++ rest) =
    loadBytes (p.Set k v) ⟨L, k, [], false, false, true, false⟩ rest := by
  obtain ⟨hkne, hk10, hk35, hkh, hkt⟩ := goodKey_parts k hk
  obtain ⟨hvne, hv10, hvh, hvt⟩ := goodValue_parts v hv
  obtain ⟨c, k2, rfl⟩ : ∃ c k2, k = c :: k2 := by
    cases k with
    | nil => exact absurd rfl hkne
    | cons c k2 => exact ⟨c, k2, rfl⟩
  obtain ⟨d, v2, rfl⟩ : ∃ d v2, v = d :: v2 := by
    cases v with
    | nil => exact absurd rfl hvne
    | cons d v2 => exact ⟨d, v2, rfl⟩
  simp only [List.contains_cons, Bool.or_eq_false_iff, beq_eq_false_iff_ne, ne_eq] at hk10 hv10
  simp only [List.headD_cons] at hk35 hkh hvh
  unfold storeLine
  rw [List.flatMap_cons]
  simp only [List.append_assoc]
  rw [key_char_step p L K [] false c _ (fun hh => hk10.1 hh.symm) (Or.inr hk35) (Or.inr hkh)]
  rw [key_run k2 p L K ([] ++ [c]) _ hk10.2]
  simp only [List.nil_append, List.cons_append]
  rw [show ∀ z, loadBytes p ⟨L, K, c :: k2, false, true, true, false⟩ (61 :: z) =
      loadBytes p ⟨L, c :: k2, [], false, false, false, false⟩ z from
    fun z => by simp [loadBytes, processByte]]
  rw [List.flatMap_cons, List.append_assoc]
  rw [val_char_step p L (c :: k2) [] false d _ (fun hh => hv10.1 hh.symm) (Or.inr hvh)]
  rw [val_run v2 p L (c :: k2) ([] ++ [d]) _ hv10.2]
  simp only [List.nil_append, List.cons_append]
  rw [show ∀ z, loadBytes p ⟨L, c :: k2, d :: v2, false, true, false, false⟩ (10 :: z) =
      loadBytes (p.Set (trimRight (c :: k2)) (trimRight (d :: v2)))
        ⟨L, c :: k2, [], false, false, true, false⟩ z from
    fun z => by simp [loadBytes, processByte]]
  rw [trimRight_eq_self _ hkt, trimRight_eq_self _ hvt]


theorem store_run (entries : List (ByteStr × ByteStr)) :
    ∀ (p : Properties) (L : Nat) (K : ByteStr),
    (∀ e ∈ entries, goodKey e.1 = true ∧ goodValue e.2 = true) →
    ∃ K2, loadBytes p ⟨L, K, [], false, false, true, false⟩
        (entries.flatMap (fun e => storeLine e.1 e.2)) =
      (entries.foldl (fun q e => q.Set e.1 e.2) p,
        (⟨L, K2, [], false, false, true, false⟩ : LoadState), none) := by
  induction entries with
  | nil => exact fun p L K _ => ⟨K, rfl⟩
  | cons e rest ih =>
    intro p L K hgood
    rw [List.flatMap_cons]
    rw [storeLine_step p L K e.1 e.2 _
      (hgood e (List.mem_cons_self e rest)).1 (hgood e (List.mem_cons_self e rest)).2]
    obtain ⟨K2, hK2⟩ := ih (p.Set e.1 e.2) L e.1
      (fun e2 he2 => hgood e2 (List.mem_cons_of_mem e he2))
    exact ⟨K2, by rw [hK2]; rfl⟩

theorem lookupVal_append (l1 l2 : List (ByteStr × ByteStr)) (k : ByteStr) :
    lookupVal (l1 ++ l2) k =
      match lookupVal l1 k with
      | some v => some v
      | none => lookupVal l2 k := by
  induction l1 with
  | nil => rfl
  | cons e rest ih =>
    simp only [List.cons_append, lookupVal]
    split <;> simp [ih]

theorem setEntry_not_found (l : List (ByteStr × ByteStr)) (k v : ByteStr)
    (h : lookupVal l k = none) : setEntry l k v = l ++ [(k, v)] := by
  induction l with
  | nil => rfl
  | cons e rest ih =>
    simp only [lookupVal] at h
    simp only [setEntry, List.cons_append]
    split
    · rename_i he
      rw [if_pos he] at h
      exact absurd h (by simp)
    · rename_i he
      rw [if_neg he] at h
      rw [ih h]

theorem foldl_Set_values (entries : List (ByteStr × ByteStr)) :
    ∀ (p : Properties),
    (∀ e ∈ entries, lookupVal p.values e.1 = none) →
    (entries.map Prod.fst).Nodup →
    (entries.foldl (fun q e => q.Set e.1 e.2) p).values = p.values ++ entries := by
  induction entries with
  | nil => intro p _ _; simp
  | cons e rest ih =>
    intro p hlk hnd
    simp only [List.map_cons, List.nodup_cons] at hnd
    have hset : (p.Set e.1 e.2).values = p.values ++ [e] := by
      rw [show p.Set e.1 e.2 = ⟨setEntry p.values e.1 e.2⟩ from rfl,
        setEntry_not_found p.values e.1 e.2 (hlk e (List.mem_cons_self e rest))]
    simp only [List.foldl_cons]
    rw [ih (p.Set e.1 e.2) ?later hnd.2]
    · rw [hset]
      simp
    case later =>
      intro e2 he2
      rw [hset, lookupVal_append]
      rw [hlk e2 (List.mem_cons_of_mem e he2)]
      have hne : e2.1 ≠ e.1 := by
        intro hh
        exact hnd.1 (hh ▸ List.mem_map_of_mem Prod.fst he2)
      have hne2 : ¬ e.1 = e2.1 := fun hh => hne hh.symm
      simp [lookupVal, hne2]

/-- C1 (amended): Store then Load round-trips observationally for every
table with pairwise-distinct keys whose keys and values survive the text
form: keys non-empty, not starting with the comment marker, and neither
keys nor values empty (values), containing a newline, or starting or ending
with a space or tab. -/
theorem c1_round_trip (T : Properties)
    (hnd : (T.values.map Prod.fst).Nodup)
    (hgood : ∀ e ∈ T.values, goodKey e.1 = true ∧ goodValue e.2 = true) :
    (New.Load T.Store .eof).2 = none ∧
    ∀ k, (New.Load T.Store .eof).1.Get k = T.Get k := by
  obtain ⟨K2, hrun⟩ := store_run T.values New 1 [] hgood
  have hfold := foldl_Set_values T.values New (fun e _ => rfl) hnd
  have hvals : (T.values.foldl (fun q e => q.Set e.1 e.2) New).values = T.values := by
    rw [hfold]; rfl
  have hload : New.Load T.Store .eof =
      (T.values.foldl (fun q e => q.Set e.1 e.2) New, none) := by
    unfold Properties.Load Properties.Store
    rw [show initState = (⟨1, [], [], false, false, true, false⟩ : LoadState) from rfl]
    rw [hrun]
    rfl
  constructor
  · rw [hload]
  · intro k
    rw [hload]
    simp only [Properties.Get, hvals]

/-- C1 at a concrete table with one entry. -/
theorem c1_round_trip_witness :
    ((New.Load (Properties.Store ⟨[(bytes "key", bytes "value")]⟩) .eof).2 = none) ∧
    (New.Load (Properties.Store ⟨[(bytes "key", bytes "value")]⟩) .eof).1.Get (bytes "key") =
      Properties.Get ⟨[(bytes "key", bytes "value")]⟩ (bytes "key") :=
  ⟨(c1_round_trip ⟨[(bytes "key", bytes "value")]⟩ (by decide) (by decide)).1,
    (c1_round_trip ⟨[(bytes "key", bytes "value")]⟩ (by decide) (by decide)).2 (bytes "key")⟩

/-- C1 counterexample to the unrestricted claim: the table binding a to the
value with a leading space — made only of ordinary supported characters —
does not round-trip: the parser discards the leading whitespace of the
value, so the reloaded table disagrees with the original at that key. -/
theorem c1_round_trip_counterexample :
    (New.Load (Properties.Store ⟨[(bytes "a", bytes " v")]⟩) .eof).1.Get (bytes "a") ≠
      Properties.Get ⟨[(bytes "a", bytes " v")]⟩ (bytes "a") := by decide
